import Mathlib

set_option maxRecDepth 8000

/-!
Shallow embedding of the `env-vars-to-json` crate (src/lib.rs) in Lean 4.

The crate converts flat (key, value) string pairs into a nested JSON tree.
We embed the data model (`serde_json::Value`) and the operations used by
`Parser::parse_iter`, `Parser::preprocess_vars`, `Parser::is_key_valid`,
`Parser::json_get_mut`, `ArrayItem::into_array_value` and the scalar
coercion chain, and prove properties of the embedding.

Modelling conventions:
- Rust `String` is Lean `String`; Rust byte-lexicographic comparison of
  UTF-8 strings equals codepoint-lexicographic comparison, embedded as
  `lexLe` on `List Char`.
- Machine integers are `Nat`/`Int` with explicit range checks mirroring
  the 64-bit `usize`/`i64` parse bounds.
- `f64` literals are modelled exactly as rationals; finiteness of the
  parsed double (the only property the code observes through
  `Number::from_f64`) is decided by the IEEE binary64 overflow threshold
  2^1024 - 2^970.  The mantissa rounding of finite values is not modelled
  (no claim depends on it); special values inf/infinity/nan are modelled.
- Fallible Rust code returns `Except`/`Outcome`; the reachable
  `panic!` in `parse_iter` (line 304) is a distinct `Outcome.panicked`
  constructor, and the `IndexMut` panic of `serde_json::Value` for
  root-level assignment on a non-object non-null root is likewise
  `panicked`.
-/

/-- One decoded JSON scalar or container, mirroring `serde_json::Value`.
Numbers keep the integer/float distinction of `serde_json::Number`;
objects are ordered key-value lists with unique keys, mirroring the map
(insertion replaces in place, fresh keys are appended). -/
inductive JValue where
  | null : JValue
  | boolVal (b : Bool) : JValue
  | intVal (i : Int) : JValue
  | floatVal (q : ℚ) : JValue
  | str (s : String) : JValue
  | arr (xs : List JValue) : JValue
  | obj (fs : List (String × JValue)) : JValue

deriving Repr

/-- ASCII lowercasing of one character, the effect of Rust
`str::to_lowercase` on the ASCII inputs the crate manipulates. -/
def lowerChar (c : Char) : Char :=
  if 65 ≤ c.toNat ∧ c.toNat ≤ 90 then Char.ofNat (c.toNat + 32) else c

/-- Lowercase a whole string (`s.to_lowercase()` on ASCII data). -/
def lowerStr (s : String) : String := String.mk (s.data.map lowerChar)

/-- Numeric value of one ASCII digit. -/
def digitVal (c : Char) : Option Nat :=
  if 48 ≤ c.toNat ∧ c.toNat ≤ 57 then some (c.toNat - 48) else none

/-- Accumulate the decimal value of a digit list; fails on a non-digit. -/
def digitsValAux : List Char → Nat → Option Nat
  | [], acc => some acc
  | c :: rest, acc =>
    match digitVal c with
    | some d => digitsValAux rest (acc * 10 + d)
    | none => none

/-- Decimal value of a nonempty all-digit character list. -/
def digitsVal : List Char → Option Nat
  | [] => none
  | l => digitsValAux l 0

/-- Rust `str::parse::<usize>()` on a 64-bit target: an optional plus
sign, then one or more ASCII digits, value at most 2^64 - 1. -/
def parseUsize (s : String) : Option Nat :=
  let l := match s.data with
    | '+' :: rest => rest
    | l => l
  match digitsVal l with
  | some v => if v < 2 ^ 64 then some v else none
  | none => none

/-- Rust `str::parse::<i64>()`: optional sign, digits, 64-bit range. -/
def parseI64 (s : String) : Option Int :=
  match s.data with
  | '+' :: rest =>
    (digitsVal rest).bind fun v =>
      if v ≤ 2 ^ 63 - 1 then some (Int.ofNat v) else none
  | '-' :: rest =>
    (digitsVal rest).bind fun v =>
      if v ≤ 2 ^ 63 then some (-(Int.ofNat v)) else none
  | l =>
    (digitsVal l).bind fun v =>
      if v ≤ 2 ^ 63 - 1 then some (Int.ofNat v) else none

/-- Result of Rust `str::parse::<f64>()`: a finite value (kept exact as a
rational), an infinity, or NaN. -/
inductive FloatVal where
  | finite (q : ℚ) : FloatVal
  | posInf : FloatVal
  | negInf : FloatVal
  | nanV : FloatVal

deriving Repr, DecidableEq

/-- Smallest magnitude at which round-to-nearest-even sends a real number
to the IEEE binary64 infinity. -/
def f64OverflowBound : ℚ := mkRat ((2 ^ 1024 - 2 ^ 970 : Nat) : Int) 1

/-- Classify a parsed decimal magnitude: values at or beyond the overflow
bound become the corresponding infinity, all others stay finite. -/
def classifyF64 (q : ℚ) : FloatVal :=
  if f64OverflowBound ≤ q then .posInf
  else if q ≤ -f64OverflowBound then .negInf
  else .finite q

/-- Parse the exponent suffix of a float literal: an optional sign and a
nonempty digit run that must consume the rest of the input. -/
def parseExp : List Char → Option Int
  | '+' :: r => (digitsVal r).map Int.ofNat
  | '-' :: r => (digitsVal r).map fun v => -(Int.ofNat v)
  | r => (digitsVal r).map Int.ofNat

/-- Exact rational value of a signed decimal literal with mantissa `m`
and decimal exponent `ex`, built with one `mkRat` so it evaluates by
integer arithmetic alone. -/
def decimalToRat (sgn : Int) (m : Nat) (ex : Int) : ℚ :=
  if 0 ≤ ex then mkRat (sgn * (m : Int) * ((10 ^ ex.toNat : Nat) : Int)) 1
  else mkRat (sgn * (m : Int)) (10 ^ (-ex).toNat)

/-- Mantissa-and-suffix part of the Rust `f64` grammar, after the sign:
`Digits '.'? Digits? Exp?` or `'.' Digits Exp?`, with at least one digit
overall.  Returns the mantissa and decimal exponent. -/
def parseDecimal (l : List Char) : Option (Nat × Int) :=
  let p := l.span Char.isDigit
  let intDigits := p.1
  let afterInt := p.2
  let q := match afterInt with
    | '.' :: r =>
      let f := r.span Char.isDigit
      (intDigits ++ f.1, f.1.length, f.2)
    | r => (intDigits, 0, r)
  let allDigits := q.1
  let fracLen := q.2.1
  let rest := q.2.2
  if allDigits.isEmpty then none
  else
    match digitsVal allDigits with
    | none => none
    | some m =>
      let e : Option Int := match rest with
        | [] => some 0
        | 'e' :: r => parseExp r
        | 'E' :: r => parseExp r
        | _ => none
      e.map fun ev => (m, ev - fracLen)

/-- Rust `str::parse::<f64>()`: optional sign, then the case-insensitive
words inf, infinity or nan, or a decimal literal; overflowing magnitudes
become infinities. -/
def parseF64 (s : String) : Option FloatVal :=
  let p := match s.data with
    | '+' :: r => ((1 : Int), r)
    | '-' :: r => ((-1 : Int), r)
    | r => ((1 : Int), r)
  let sgn := p.1
  let rest := p.2
  let low := rest.map lowerChar
  if low = "inf".data ∨ low = "infinity".data then
    some (if sgn = 1 then .posInf else .negInf)
  else if low = "nan".data then some .nanV
  else
    (parseDecimal rest).map fun me => classifyF64 (decimalToRat sgn me.1 me.2)

/-- Rust `str::parse::<bool>()`: exactly the strings true and false. -/
def parseBool (s : String) : Option Bool :=
  if s = "true" then some true
  else if s = "false" then some false
  else none

/-- Scalar coercion of one raw value string, mirroring lib.rs lines
255-263: try `i64`, then `f64` (a non-finite parse is the error
"Failed to parse float"), then `bool`, else keep the string unchanged. -/
def coerce (s : String) : Except String JValue :=
  match parseI64 s with
  | some n => .ok (.intVal n)
  | none =>
    match parseF64 s with
    | some (.finite q) => .ok (.floatVal q)
    | some _ => .error "Failed to parse float"
    | none =>
      match parseBool s with
      | some b => .ok (.boolVal b)
      | none => .ok (.str s)

/-- Index into a json node, mirroring the `JsonIndex` enum: a string key
or a numeric array position. -/
inductive JsonIndex where
  | strI (k : String) : JsonIndex
  | natI (n : Nat) : JsonIndex

deriving Repr, DecidableEq

/-- The `From<&str> for JsonIndex` conversion: `Usize` when the token
parses as `usize`, else `String`. -/
def jsonIndexOf (s : String) : JsonIndex :=
  match parseUsize s with
  | some n => .natI n
  | none => .strI s

/-- Lookup of a key in an object field list (`Map::get`). -/
def lookupObj : List (String × JValue) → String → Option JValue
  | [], _ => none
  | (k, v) :: rest, key => if k = key then some v else lookupObj rest key

/-- Map insert (`Map::insert`): replace the value of an existing key in
place, or append a fresh key. -/
def insertObj : List (String × JValue) → String → JValue → List (String × JValue)
  | [], key, v => [(key, v)]
  | (k, w) :: rest, key, v =>
    if k = key then (key, v) :: rest else (k, w) :: insertObj rest key v

/-- Rewrite the value stored under an existing key, leaving the rest of
the object untouched. -/
def modifyObj : List (String × JValue) → String → (JValue → JValue) → List (String × JValue)
  | [], _, _ => []
  | (k, v) :: rest, key, f =>
    if k = key then (k, f v) :: rest else (k, v) :: modifyObj rest key f

/-- Rewrite one position of a list, leaving the rest untouched. -/
def modifyIdx : List JValue → Nat → (JValue → JValue) → List JValue
  | [], _, _ => []
  | x :: rest, 0, f => f x :: rest
  | x :: rest, n + 1, f => x :: modifyIdx rest n f

/-- Read-only resolution of a path, mirroring `Parser::json_get_mut`
(lines 345-363): `get_mut(key)` succeeds only on objects, `get_mut(idx)`
only on arrays, and the whole walk fails at the first unresolved step. -/
def getAt : JValue → List JsonIndex → Option JValue
  | t, [] => some t
  | .obj fs, .strI k :: rest =>
    match lookupObj fs k with
    | some u => getAt u rest
    | none => none
  | .arr xs, .natI n :: rest =>
    match xs[n]? with
    | some u => getAt u rest
    | none => none
  | _, _ :: _ => none

/-- Functional image of writing through the mutable reference returned by
`json_get_mut`: replace the node at a path that resolves, changing
nothing else (identity on paths that do not resolve). -/
def setAt : JValue → List JsonIndex → JValue → JValue
  | _, [], v => v
  | .obj fs, .strI k :: rest, v => .obj (modifyObj fs k fun old => setAt old rest v)
  | .arr xs, .natI n :: rest, v => .arr (modifyIdx xs n fun old => setAt old rest v)
  | t, _ :: _, _ => t

/-- The `ArrayItem::into_array_value` conversion (lines 99-107): index 0
gives a singleton, otherwise the value sits after `index` nulls. -/
def intoArrayValue (index : Nat) (v : JValue) : JValue :=
  if index = 0 then .arr [v]
  else .arr (List.replicate index .null ++ [v])

/-- The `PartValue` enum: the unit carried bottom-up by the splice loop,
either an object-shaped value or an array item at a given index. -/
inductive PartValue where
  | objectU (v : JValue) : PartValue
  | arrayItemU (index : Nat) (v : JValue) : PartValue

deriving Repr

/-- The `PartValue::into_json_value` conversion. -/
def PartValue.intoJson : PartValue → JValue
  | .objectU v => v
  | .arrayItemU i v => intoArrayValue i v

/-- Result of a fallible computation that can also abort the process:
`err` is a returned `Result::Err`, `panicked` an uncatchable `panic!`. -/
inductive Outcome (α : Type) where
  | ok (a : α) : Outcome α
  | err (e : String) : Outcome α
  | panicked (msg : String) : Outcome α

deriving Repr

/-- Sequencing of outcomes: errors and panics propagate. -/
def Outcome.bindO : Outcome α → (α → Outcome β) → Outcome β
  | .ok a, f => f a
  | .err e, _ => .err e
  | .panicked m, _ => .panicked m

/-- Writing an array item into an existing array (lines 306-314): grow
with nulls when the index is at or past the length, then overwrite the
slot in place. -/
def arrSet (xs : List JValue) (index : Nat) (v : JValue) : List JValue :=
  let grown := if xs.length ≤ index
    then xs ++ List.replicate (index + 1 - xs.length) .null
    else xs
  grown.set index v

/-- Merge of the carried unit into the node an existing prefix resolved
to (lines 288-317).  An object unit meeting an object inserts the single
carried pair; meeting null or a scalar replaces the node wholesale;
meeting an array hits the `panic!` on line 304 (modelled `panicked`; the
Rust message appends a Debug rendering of the node).  An array-item unit
requires an array (`Expected array`); the Rust error for a scalar carried
into an object appends a Debug rendering, modelled by the constant
`Expected object`. -/
def mergeAt (st : JValue) (indices : List JsonIndex) (curr : JValue)
    (pv : PartValue) : Outcome JValue :=
  match pv with
  | .objectU value =>
    match curr with
    | .obj fs =>
      match value with
      | .obj [] => .panicked "called Option unwrap on a None value"
      | .obj ((k, v) :: _) => .ok (setAt st indices (.obj (insertObj fs k v)))
      | _ => .err "Expected object"
    | .null => .ok (setAt st indices value)
    | .boolVal _ => .ok (setAt st indices value)
    | .intVal _ => .ok (setAt st indices value)
    | .floatVal _ => .ok (setAt st indices value)
    | .str _ => .ok (setAt st indices value)
    | .arr _ => .panicked "Unexpected value"
  | .arrayItemU index v =>
    match curr with
    | .arr xs => .ok (setAt st indices (.arr (arrSet xs index v)))
    | _ => .err "Expected array"

/-- Root-level insertion of the finished unit when the one-index prefix
did not resolve (lines 319-325); the root must be an object. -/
def rootInsert (st : JValue) (part : String) (pv : PartValue) : Outcome JValue :=
  match st with
  | .obj fs => .ok (.obj (insertObj fs (lowerStr part) pv.intoJson))
  | _ => .err "Expected object"

/-- The `json[key] = value` assignment for a single-segment key (line
271), with the `serde_json` IndexMut semantics: objects insert, null
turns into a fresh object, anything else panics. -/
def rootIndexAssign (st : JValue) (key : String) (v : JValue) : Outcome JValue :=
  match st with
  | .obj fs => .ok (.obj (insertObj fs key v))
  | .null => .ok (.obj [(key, v)])
  | _ => .panicked "cannot access key"

/-- Wrapping of the carried unit one level up (lines 327-337): a field
token wraps it in a fresh single-field object, a numeric token turns it
into an array item at that index. -/
def wrapPart (part : String) (pv : PartValue) : PartValue :=
  match parseUsize part with
  | none => .objectU (.obj [(part, pv.intoJson)])
  | some n => .arrayItemU n pv.intoJson

/-- The bottom-up splice loop of `parse_iter` (lines 279-338), with `i`
the current (0-based) position in the part list: resolve the prefix up to
`i`; on success merge and stop; otherwise wrap the carried unit with part
`i` (object wrapper for a field token, array item for a numeric token)
and continue one level up; at the root insert into the root object. -/
def spliceLoop (parts : List String) : Nat → JValue → PartValue → Outcome JValue
  | 0, st, pv =>
    let indices := (parts.take 1).map jsonIndexOf
    match getAt st indices with
    | some curr => mergeAt st indices curr pv
    | none => rootInsert st (parts.headD "") pv
  | j + 1, st, pv =>
    let indices := (parts.take (j + 2)).map jsonIndexOf
    match getAt st indices with
    | some curr => mergeAt st indices curr pv
    | none => spliceLoop parts j st (wrapPart (parts.getD (j + 1) "") pv)

/-- Fuel-indexed split of a character list on a nonempty separator,
non-overlapping and left-to-right, as Rust `str::split`. -/
def splitFuel (sep : List Char) : Nat → List Char → List Char → List (List Char)
  | 0, l, acc => [acc.reverse ++ l]
  | fuel + 1, l, acc =>
    match l with
    | [] => [acc.reverse]
    | c :: rest =>
      if sep ≠ [] ∧ sep.isPrefixOf l then
        acc.reverse :: splitFuel sep fuel (l.drop sep.length) []
      else
        splitFuel sep fuel rest (c :: acc)

/-- Rust `key.split(separator)`; the empty separator splits at every
character boundary. -/
def splitKeyRaw (sep key : String) : List String :=
  if sep.data = [] then
    "" :: (key.data.map fun c => String.mk [c]) ++ [""]
  else
    (splitFuel sep.data (key.data.length + 1) key.data []).map String.mk

/-- Processing of one surviving (key, value) pair inside the main loop of
`parse_iter` (lines 249-338): split and lowercase the key, coerce the
value, reject a lone numeric segment, assign a lone field segment on the
root, and otherwise run the bottom-up splice loop. -/
def processVar (sep : String) (st : JValue) (kv : String × String) : Outcome JValue :=
  let parts := (splitKeyRaw sep kv.1).map lowerStr
  match coerce kv.2 with
  | .error e => .err e
  | .ok v =>
    if parts.length = 1 then
      match parseUsize (parts.headD "") with
      | some _ => .err "First key part cannot be a number"
      | none => rootIndexAssign st (parts.headD "") v
    else
      spliceLoop parts (parts.length - 1) st (.objectU v)

/-- Boolean lexicographic order on character lists by codepoint, the
order Rust `String::cmp` induces on UTF-8 strings. -/
def lexLe : List Char → List Char → Bool
  | [], _ => true
  | _ :: _, [] => false
  | a :: r1, b :: r2 =>
    if a.toNat < b.toNat then true
    else if b.toNat < a.toNat then false
    else lexLe r1 r2

/-- String comparison in the Rust byte order. -/
def strLeBytes (a b : String) : Bool := lexLe a.data b.data

/-- The pair order used by the sort of `preprocess_vars` (line 223):
`x` may precede `y` when the comparator `key_b.cmp(key_a)` is not
Greater, i.e. descending by key. -/
def descOrder (x y : String × String) : Prop := strLeBytes y.1 x.1 = true

instance : DecidableRel descOrder := fun x y => by
  unfold descOrder; infer_instance

/-- The sort of `preprocess_vars` (line 223): Rust `sort_by` is a stable
sort, embedded as the stable insertion sort with the same order (a stable
sort of a list under a fixed total preorder is unique, so this is
extensionally the Rust merge sort). -/
def sortDesc (l : List (String × String)) : List (String × String) :=
  l.insertionSort descOrder

/-- Rust `str::starts_with` on a literal. -/
def strStartsWith (s pre : String) : Bool := pre.data.isPrefixOf s.data

/-- Rust `str::strip_prefix` on a literal. -/
def strStripPfx (s pre : String) : Option String :=
  if pre.data.isPrefixOf s.data then some (String.mk (s.data.drop pre.data.length))
  else none

/-- The `Parser` configuration struct.  The compiled include and exclude
regexes are abstracted to boolean match predicates (regex compilation is
outside the core); `json` is the seed tree. -/
structure Parser where
  pfx : Option String
  separator : String
  includeP : List (String → Bool)
  excludeP : List (String → Bool)
  json : JValue

/-- The `Default` instance of `Parser`: no prefix, separator `__`, no
patterns, empty object seed. -/
def defaultParser : Parser :=
  { pfx := none, separator := "__", includeP := [], excludeP := [], json := .obj [] }

/-- The `Parser::is_key_valid` test (lines 230-242): with a nonempty include list
at least one pattern must match, and with a nonempty exclude list no
pattern may match. -/
def isKeyValid (p : Parser) (key : String) : Bool :=
  if !p.includeP.isEmpty && !(p.includeP.any fun pat => pat key) then false
  else if !p.excludeP.isEmpty && (p.excludeP.any fun pat => pat key) then false
  else true

/-- The `Parser::preprocess_vars` stage (lines 199-226): when a prefix is
configured, keep only keys starting with it, apply the include/exclude
validity test, and strip the prefix (with the defensive error of line
212); without a prefix the pairs pass through untouched and unfiltered.
Finally sort descending by key. -/
def preprocess_vars (p : Parser) (vars : List (String × String)) :
    Except String (List (String × String)) :=
  match p.pfx with
  | some px =>
    let v1 := vars.filter fun kv => strStartsWith kv.1 px
    let v2 := v1.filter fun kv => isKeyValid p kv.1
    match v2.mapM (fun kv =>
      match strStripPfx kv.1 px with
      | some k => Except.ok (k, kv.2)
      | none => Except.error ("key " ++ kv.1 ++ " does not match prefix " ++ px)) with
    | .error e => .error e
    | .ok stripped => .ok (sortDesc stripped)
  | none => .ok (sortDesc vars)

/-- The per-pair loop of `parse_iter`: thread the tree through
`processVar`, aborting on the first error or panic. -/
def parseLoop (sep : String) : JValue → List (String × String) → Outcome JValue
  | st, [] => .ok st
  | st, kv :: rest =>
    match processVar sep st kv with
    | .ok st' => parseLoop sep st' rest
    | .err e => .err e
    | .panicked m => .panicked m

/-- The `Parser::parse_iter` entry point (lines 245-342): preprocess the pairs, clone the
seed tree, and process every surviving pair in sorted order. -/
def parse_iter (p : Parser) (vars : List (String × String)) : Outcome JValue :=
  match preprocess_vars p vars with
  | .error e => .err e
  | .ok sorted => parseLoop p.separator p.json sorted

/-- The `parse_iter` call with the `&self` receiver made explicit as state
passing.  The Rust body takes the parser by shared reference, has no
interior mutability, reads its fields, and clones `self.json` (line 247)
before mutating the clone, so the parser after the call is the parser
before it. -/
def parse_iter_st (p : Parser) (vars : List (String × String)) :
    Outcome JValue × Parser :=
  (parse_iter p vars, p)

/-- Values produced by scalar coercion: always a bool, number or string,
never null, an array or an object. -/
def isScalarJ : JValue → Prop
  | .boolVal _ => True
  | .intVal _ => True
  | .floatVal _ => True
  | .str _ => True
  | _ => False

/-- The filter-and-strip stage of `preprocess_vars`, before the sort:
with a prefix, keep keys that start with it and pass the validity test,
then strip the prefix; without one, all pairs survive. -/
def survivorsE (p : Parser) (vars : List (String × String)) :
    Except String (List (String × String)) :=
  match p.pfx with
  | some px =>
    ((vars.filter fun kv => strStartsWith kv.1 px).filter
        fun kv => isKeyValid p kv.1).mapM
      fun kv =>
        match strStripPfx kv.1 px with
        | some k => Except.ok (k, kv.2)
        | none => Except.error ("key " ++ kv.1 ++ " does not match prefix " ++ px)
  | none => .ok vars

/-- The carried unit of the splice loop as a function of the number of
wrap steps performed: `carriedFrom parts cv k` is the unit carried at
level `parts.length - 1 - k`, starting from the coerced leaf value
wrapped as an object unit, exactly as line 277 does. -/
def carriedFrom (parts : List String) (cv : JValue) : Nat → PartValue
  | 0 => .objectU cv
  | k + 1 => wrapPart (parts.getD (parts.length - 1 - k) "") (carriedFrom parts cv k)

/-- A parser configured with prefix PREFIX__, separator __ and the given
seed tree, as in the crate test fixtures. -/
def prefixedParser (seed : JValue) : Parser := ⟨some "PREFIX__", "__", [], [], seed⟩

/-- A parser with only an include predicate configured and no prefix. -/
def includeOnlyParser : Parser := ⟨none, "__", [fun k => k == "A"], [], .obj []⟩

/-- The default parser with a seed holding an existing array under key a. -/
def seededArrayParser : Parser := ⟨none, "__", [], [], .obj [("a", .arr [.intVal 1])]⟩

theorem lookupObj_insertObj_self (fs : List (String × JValue)) (k : String) (v : JValue) :
    lookupObj (insertObj fs k v) k = some v := by
  induction fs with
  | nil => simp [insertObj, lookupObj]
  | cons hd tl ih =>
    obtain ⟨k0, v0⟩ := hd
    by_cases h : k0 = k
    · simp [insertObj, h, lookupObj]
    · simp [insertObj, h, lookupObj, ih]

theorem insertObj_insertObj_self (fs : List (String × JValue)) (k : String) (v : JValue) :
    insertObj (insertObj fs k v) k v = insertObj fs k v := by
  induction fs with
  | nil => simp [insertObj]
  | cons hd tl ih =>
    obtain ⟨k0, v0⟩ := hd
    by_cases h : k0 = k
    · simp [insertObj, h]
    · simp [insertObj, h, ih]

theorem lookupObj_modifyObj_self (fs : List (String × JValue)) (k : String)
    (f : JValue → JValue) :
    lookupObj (modifyObj fs k f) k = (lookupObj fs k).map f := by
  induction fs with
  | nil => simp [modifyObj, lookupObj]
  | cons hd tl ih =>
    obtain ⟨k0, v0⟩ := hd
    by_cases h : k0 = k
    · simp [modifyObj, h, lookupObj]
    · simp [modifyObj, h, lookupObj, ih]

theorem modifyObj_id_of_lookup (fs : List (String × JValue)) (k : String)
    (f : JValue → JValue) (w : JValue) (hl : lookupObj fs k = some w) (hf : f w = w) :
    modifyObj fs k f = fs := by
  induction fs with
  | nil => simp [lookupObj] at hl
  | cons hd tl ih =>
    obtain ⟨k0, v0⟩ := hd
    by_cases h : k0 = k
    · simp [lookupObj, h] at hl
      simp [modifyObj, h, hl, hf]
    · simp [lookupObj, h] at hl
      simp [modifyObj, h, ih hl]

theorem modifyIdx_getElem_self (xs : List JValue) (n : Nat) (f : JValue → JValue) :
    (modifyIdx xs n f)[n]? = (xs[n]?).map f := by
  induction xs generalizing n with
  | nil => simp [modifyIdx]
  | cons hd tl ih =>
    cases n with
    | zero => simp [modifyIdx]
    | succ m => simp [modifyIdx, ih]

theorem modifyIdx_id_of_getElem (xs : List JValue) (n : Nat) (f : JValue → JValue)
    (w : JValue) (h : xs[n]? = some w) (hf : f w = w) : modifyIdx xs n f = xs := by
  induction xs generalizing n with
  | nil => simp at h
  | cons hd tl ih =>
    cases n with
    | zero =>
      simp at h
      simp [modifyIdx, h, hf]
    | succ m =>
      simp at h
      simp [modifyIdx, ih m h]

theorem getAt_append (p q : List JsonIndex) :
    ∀ t, getAt t (p ++ q) = (getAt t p).bind fun u => getAt u q := by
  induction p with
  | nil => intro t; simp [getAt]
  | cons idx rest ih =>
    intro t
    cases t <;> cases idx <;> simp only [List.cons_append, getAt, Option.bind] <;> try rfl
    case cons.arr.natI xs n =>
      cases h : xs[n]?
      · rfl
      · simpa using ih _
    case cons.obj.strI fs k =>
      cases h : lookupObj fs k
      · rfl
      · simpa using ih _

theorem getAt_setAt_self (p : List JsonIndex) :
    ∀ (t u v : JValue), getAt t p = some u → getAt (setAt t p v) p = some v := by
  induction p with
  | nil => intro t u v _; simp [setAt, getAt]
  | cons idx rest ih =>
    intro t u v h
    cases t <;> cases idx <;> simp only [getAt] at h ⊢ <;> try exact absurd h (by simp)
    case obj.strI fs k =>
      cases hw : lookupObj fs k with
      | none => rw [hw] at h; simp at h
      | some w =>
        rw [hw] at h
        simp only [setAt, getAt, lookupObj_modifyObj_self, hw, Option.map_some']
        exact ih w u v h
    case arr.natI xs n =>
      cases hw : xs[n]? with
      | none => rw [hw] at h; simp at h
      | some w =>
        rw [hw] at h
        simp only [setAt, getAt, modifyIdx_getElem_self, hw, Option.map_some']
        exact ih w u v h

theorem setAt_of_getAt (p : List JsonIndex) :
    ∀ (t v : JValue), getAt t p = some v → setAt t p v = t := by
  induction p with
  | nil =>
    intro t v h
    simp [getAt] at h
    simp [setAt, h]
  | cons idx rest ih =>
    intro t v h
    cases t <;> cases idx <;> simp only [getAt] at h <;> try exact absurd h (by simp)
    case obj.strI fs k =>
      cases hw : lookupObj fs k with
      | none => rw [hw] at h; simp at h
      | some w =>
        rw [hw] at h
        simp only [setAt]
        rw [modifyObj_id_of_lookup fs k _ w hw (ih w v h)]
    case arr.natI xs n =>
      cases hw : xs[n]? with
      | none => rw [hw] at h; simp at h
      | some w =>
        rw [hw] at h
        simp only [setAt]
        rw [modifyIdx_id_of_getElem xs n _ w hw (ih w v h)]

theorem lowerChar_idem (c : Char) : lowerChar (lowerChar c) = lowerChar c := by
  by_cases h : 65 ≤ c.toNat ∧ c.toNat ≤ 90
  · have hv : Nat.isValidChar (c.toNat + 32) := Or.inl (by omega)
    have ht : (Char.ofNat (c.toNat + 32)).toNat = c.toNat + 32 := by
      simp only [Char.ofNat, hv, dif_pos]
      rfl
    have h1 : lowerChar c = Char.ofNat (c.toNat + 32) := if_pos h
    rw [h1]
    unfold lowerChar
    rw [if_neg]
    rw [ht]
    omega
  · have h1 : lowerChar c = c := if_neg h
    rw [h1]
    exact h1

theorem lowerStr_idem (s : String) : lowerStr (lowerStr s) = lowerStr s := by
  unfold lowerStr
  simp [List.map_map, Function.comp_def, lowerChar_idem]

theorem lowerStr_mem_map_idem (parts : List String) (raw : List String)
    (hp : parts = raw.map lowerStr) : ∀ t ∈ parts, lowerStr t = t := by
  intro t ht
  subst hp
  obtain ⟨r, _, rfl⟩ := List.mem_map.mp ht
  exact lowerStr_idem r

theorem coerce_isScalarJ (s : String) (v : JValue) (h : coerce s = .ok v) :
    isScalarJ v := by
  unfold coerce at h
  cases hp : parseI64 s with
  | some n => rw [hp] at h; injection h with h; subst h; trivial
  | none =>
    rw [hp] at h
    cases hf : parseF64 s with
    | some fv =>
      rw [hf] at h
      cases fv with
      | finite q => injection h with h; subst h; trivial
      | posInf => exact Except.noConfusion h
      | negInf => exact Except.noConfusion h
      | nanV => exact Except.noConfusion h
    | none =>
      rw [hf] at h
      cases hb : parseBool s with
      | some b => rw [hb] at h; injection h with h; subst h; trivial
      | none => rw [hb] at h; injection h with h; subst h; trivial

theorem arrSet_getElem_self (xs : List JValue) (n : Nat) (v : JValue) :
    (arrSet xs n v)[n]? = some v := by
  unfold arrSet
  by_cases h : xs.length ≤ n
  · simp only [h, if_true]
    rw [List.getElem?_set_eq_of_lt]
    simp [List.length_append, List.length_replicate]
    omega
  · simp only [h, if_false]
    rw [List.getElem?_set_eq_of_lt]
    omega

theorem intoArrayValue_getElem (n : Nat) (v : JValue) :
    ∃ l, intoArrayValue n v = .arr l ∧ l[n]? = some v := by
  unfold intoArrayValue
  by_cases h : n = 0
  · subst h; exact ⟨[v], rfl, rfl⟩
  · simp only [h, if_false]
    refine ⟨_, rfl, ?_⟩
    rw [List.getElem?_append_right (by simp [List.length_replicate])]
    simp [List.length_replicate]

theorem splitFuel_ne_nil (sep : List Char) :
    ∀ (fuel : Nat) (l acc : List Char), splitFuel sep fuel l acc ≠ [] := by
  intro fuel
  induction fuel with
  | zero => intro l acc; simp [splitFuel]
  | succ f ih =>
    intro l acc
    cases l with
    | nil => simp [splitFuel]
    | cons c rest =>
      simp only [splitFuel]
      by_cases h : sep ≠ [] ∧ sep.isPrefixOf (c :: rest) = true
      · rw [if_pos h]
        simp
      · rw [if_neg h]
        exact ih rest (c :: acc)

theorem splitKeyRaw_ne_nil (sep key : String) : splitKeyRaw sep key ≠ [] := by
  unfold splitKeyRaw
  by_cases h : sep.data = []
  · simp [h]
  · simp only [h, if_false]
    intro hc
    exact splitFuel_ne_nil sep.data _ key.data [] (List.map_eq_nil_iff.mp hc)

theorem lexLe_refl : ∀ l : List Char, lexLe l l = true := by
  intro l
  induction l with
  | nil => rfl
  | cons a r ih => simp [lexLe, ih]

theorem lexLe_total : ∀ l1 l2 : List Char, lexLe l1 l2 = true ∨ lexLe l2 l1 = true := by
  intro l1
  induction l1 with
  | nil => intro l2; left; rfl
  | cons a r1 ih =>
    intro l2
    cases l2 with
    | nil => right; rfl
    | cons b r2 =>
      by_cases hab : a.toNat < b.toNat
      · left; simp [lexLe, hab]
      · by_cases hba : b.toNat < a.toNat
        · right; simp [lexLe, hba]
        · cases ih r2 with
          | inl h => left; simp [lexLe, hab, hba, h]
          | inr h => right; simp [lexLe, hba, hab, h]

theorem lexLe_trans :
    ∀ l1 l2 l3 : List Char, lexLe l1 l2 = true → lexLe l2 l3 = true →
      lexLe l1 l3 = true := by
  intro l1
  induction l1 with
  | nil => intro l2 l3 _ _; rfl
  | cons a r1 ih =>
    intro l2 l3 h12 h23
    cases l2 with
    | nil => simp [lexLe] at h12
    | cons b r2 =>
      cases l3 with
      | nil => simp [lexLe] at h23
      | cons c r3 =>
        simp only [lexLe] at h12 h23 ⊢
        by_cases hab : a.toNat < b.toNat
        · rw [if_pos hab] at h12
          by_cases hbc : b.toNat < c.toNat
          · rw [if_pos (by omega : a.toNat < c.toNat)]
          · by_cases hcb : c.toNat < b.toNat
            · rw [if_neg hbc, if_pos hcb] at h23
              exact absurd h23 (by simp)
            · rw [if_pos (by omega : a.toNat < c.toNat)]
        · by_cases hba : b.toNat < a.toNat
          · rw [if_neg hab, if_pos hba] at h12
            exact absurd h12 (by simp)
          · rw [if_neg hab, if_neg hba] at h12
            by_cases hbc : b.toNat < c.toNat
            · rw [if_pos (by omega : a.toNat < c.toNat)]
            · by_cases hcb : c.toNat < b.toNat
              · rw [if_neg hbc, if_pos hcb] at h23
                exact absurd h23 (by simp)
              · rw [if_neg hbc, if_neg hcb] at h23
                rw [if_neg (by omega : ¬a.toNat < c.toNat),
                  if_neg (by omega : ¬c.toNat < a.toNat)]
                exact ih r2 r3 h12 h23

theorem lexLe_append_right_ne :
    ∀ (l m : List Char), m ≠ [] → lexLe (l ++ m) l = false := by
  intro l
  induction l with
  | nil =>
    intro m hm
    cases m with
    | nil => exact absurd rfl hm
    | cons c r => rfl
  | cons a r1 ih =>
    intro m hm
    simp only [List.cons_append, lexLe]
    rw [if_neg (by omega : ¬a.toNat < a.toNat), if_neg (by omega : ¬a.toNat < a.toNat)]
    exact ih m hm

theorem except_match_sort (x : Except String (List (String × String))) :
    (match x with
      | Except.error e => Except.error e
      | Except.ok stripped => Except.ok (sortDesc stripped)) = x.map sortDesc := by
  cases x <;> rfl

theorem preprocess_eq_sort_survivors (p : Parser) (vars : List (String × String)) :
    preprocess_vars p vars = (survivorsE p vars).map sortDesc := by
  unfold preprocess_vars survivorsE
  cases p.pfx with
  | none => rfl
  | some px => exact except_match_sort _

theorem processVar_single_numeric (sep k v t : String) (n : Nat) (cv : JValue)
    (hsplit : (splitKeyRaw sep k).map lowerStr = [t])
    (hnum : parseUsize t = some n) (hcv : coerce v = .ok cv) (st : JValue) :
    processVar sep st (k, v) = .err "First key part cannot be a number" := by
  unfold processVar
  simp only [hsplit, hcv, List.length_cons, List.length_nil, List.headD_cons,
    if_pos rfl, hnum, if_true]

theorem processVar_single_numeric_always_err (sep k v t : String) (n : Nat)
    (hsplit : (splitKeyRaw sep k).map lowerStr = [t])
    (hnum : parseUsize t = some n) (st : JValue) :
    ∃ e, processVar sep st (k, v) = .err e := by
  cases hc : coerce v with
  | error e =>
    refine ⟨e, ?_⟩
    unfold processVar
    simp only [hc]
  | ok cv => exact ⟨_, processVar_single_numeric sep k v t n cv hsplit hnum hc st⟩

theorem parseLoop_no_ok_of_mem (sep : String) (kv : String × String)
    (herr : ∀ st, ∃ e, processVar sep st kv = .err e) :
    ∀ (l : List (String × String)) (st : JValue), kv ∈ l →
      ∀ r, parseLoop sep st l ≠ .ok r := by
  intro l
  induction l with
  | nil => intro st h; simp at h
  | cons hd tl ih =>
    intro st hmem r hok
    simp only [parseLoop] at hok
    by_cases hh : kv = hd
    · subst hh
      obtain ⟨e, he⟩ := herr st
      rw [he] at hok
      exact Outcome.noConfusion hok
    · have hmem2 : kv ∈ tl := by
        rcases List.mem_cons.mp hmem with h1 | h1
        · exact absurd h1 hh
        · exact h1
      cases hp : processVar sep st hd with
      | ok st2 =>
        rw [hp] at hok
        exact ih st2 hmem2 r hok
      | err e => rw [hp] at hok; exact Outcome.noConfusion hok
      | panicked m => rw [hp] at hok; exact Outcome.noConfusion hok

theorem string_data_append (a b : String) : (a ++ b).data = a.data ++ b.data := rfl

theorem string_mk_data (s : String) : String.mk s.data = s := rfl

theorem strStripPfx_of_startsWith (s px : String) (h : strStartsWith s px = true) :
    strStripPfx s px = some (String.mk (s.data.drop px.data.length)) := by
  unfold strStripPfx
  unfold strStartsWith at h
  rw [if_pos h]

theorem mapM_strip_ok (px : String) :
    ∀ l : List (String × String), (∀ kv ∈ l, strStartsWith kv.1 px = true) →
      (l.mapM fun kv =>
        match strStripPfx kv.1 px with
        | some k => Except.ok (k, kv.2)
        | none => Except.error ("key " ++ kv.1 ++ " does not match prefix " ++ px))
      = Except.ok (l.map fun kv => (String.mk (kv.1.data.drop px.data.length), kv.2)) := by
  intro l
  induction l with
  | nil => intro _; rfl
  | cons hd tl ih =>
    intro h
    rw [List.mapM_cons]
    rw [strStripPfx_of_startsWith hd.1 px (h hd (List.mem_cons_self hd tl))]
    rw [ih fun kv hkv => h kv (List.mem_cons_of_mem hd hkv)]
    rfl

theorem getAt_obj_natI (fs : List (String × JValue)) (n : Nat) (rest : List JsonIndex) :
    getAt (.obj fs) (.natI n :: rest) = none := rfl

theorem getAt_obj_strI (fs : List (String × JValue)) (k : String) (rest : List JsonIndex) :
    getAt (.obj fs) (.strI k :: rest)
      = match lookupObj fs k with
        | some u => getAt u rest
        | none => none := rfl

theorem getAt_arr_natI (xs : List JValue) (n : Nat) (rest : List JsonIndex) :
    getAt (.arr xs) (.natI n :: rest)
      = match xs[n]? with
        | some u => getAt u rest
        | none => none := rfl

theorem jsonIndexOf_of_none (s : String) (h : parseUsize s = none) :
    jsonIndexOf s = .strI s := by
  unfold jsonIndexOf
  rw [h]

theorem jsonIndexOf_of_some (s : String) (n : Nat) (h : parseUsize s = some n) :
    jsonIndexOf s = .natI n := by
  unfold jsonIndexOf
  rw [h]

theorem map_take_append_drop (parts : List String) (i : Nat) :
    parts.map jsonIndexOf
      = (parts.take (i + 1)).map jsonIndexOf ++ (parts.drop (i + 1)).map jsonIndexOf := by
  rw [← List.map_append, List.take_append_drop]

theorem map_drop_cons (parts : List String) (i : Nat) (h : i + 1 < parts.length) :
    (parts.drop (i + 1)).map jsonIndexOf
      = jsonIndexOf parts[i + 1] :: (parts.drop (i + 2)).map jsonIndexOf := by
  rw [List.drop_eq_getElem_cons h]
  rfl

theorem spliceLoop_eq (parts : List String) (i : Nat) (st : JValue) (pv : PartValue) :
    spliceLoop parts i st pv =
      match getAt st ((parts.take (i + 1)).map jsonIndexOf) with
      | some curr => mergeAt st ((parts.take (i + 1)).map jsonIndexOf) curr pv
      | none =>
        match i with
        | 0 => rootInsert st (parts.headD "") pv
        | j + 1 => spliceLoop parts j st (wrapPart (parts.getD (j + 1) "") pv) := by
  cases i <;> rfl

theorem intoJson_objectU (v : JValue) : (PartValue.objectU v).intoJson = v := rfl

theorem intoJson_arrayItemU (n : Nat) (v : JValue) :
    (PartValue.arrayItemU n v).intoJson = intoArrayValue n v := rfl

theorem getAt_carriedFrom (parts : List String) (cv : JValue) :
    ∀ k, k < parts.length →
      getAt ((carriedFrom parts cv k).intoJson)
        ((parts.drop (parts.length - k)).map jsonIndexOf) = some cv := by
  intro k
  induction k with
  | zero =>
    intro _
    simp [carriedFrom, PartValue.intoJson, List.drop_length, getAt]
  | succ k ih =>
    intro hk
    have hkL : k < parts.length := by omega
    have hj : parts.length - (k + 1) < parts.length := by omega
    rw [List.drop_eq_getElem_cons hj]
    have harith : parts.length - (k + 1) + 1 = parts.length - k := by omega
    rw [harith]
    have hgd : parts.getD (parts.length - 1 - k) "" = parts[parts.length - (k + 1)] := by
      have he : parts.length - 1 - k = parts.length - (k + 1) := by omega
      rw [he, List.getD_eq_getElem parts "" hj]
    show getAt ((wrapPart (parts.getD (parts.length - 1 - k) "")
        (carriedFrom parts cv k)).intoJson) _ = _
    rw [hgd]
    unfold wrapPart
    cases hp : parseUsize parts[parts.length - (k + 1)] with
    | none =>
      simp only [intoJson_objectU, List.map_cons,
        jsonIndexOf_of_none parts[parts.length - (k + 1)] hp]
      simp only [getAt_obj_strI, lookupObj, if_pos rfl]
      exact ih hkL
    | some n =>
      simp only [intoJson_arrayItemU, List.map_cons,
        jsonIndexOf_of_some parts[parts.length - (k + 1)] n hp]
      obtain ⟨xl, hxl, hget⟩ := intoArrayValue_getElem n ((carriedFrom parts cv k).intoJson)
      rw [hxl]
      simp only [getAt_arr_natI, hget]
      exact ih hkL

theorem carriedFrom_wrap (parts : List String) (cv : JValue) (j : Nat)
    (hj : j + 1 ≤ parts.length - 1) :
    wrapPart (parts.getD (j + 1) "") (carriedFrom parts cv (parts.length - 1 - (j + 1)))
      = carriedFrom parts cv (parts.length - 1 - j) := by
  have hk : parts.length - 1 - j = (parts.length - 1 - (j + 1)) + 1 := by omega
  rw [hk]
  have hidx : parts.length - 1 - (parts.length - 1 - (j + 1)) = j + 1 := by omega
  conv_rhs => rw [carriedFrom, hidx]

theorem spliceLoop_replace_same (parts : List String) (cv st' : JValue)
    (hscal : isScalarJ cv) (hne : parts ≠ [])
    (hget : getAt st' (parts.map jsonIndexOf) = some cv) :
    spliceLoop parts (parts.length - 1) st' (.objectU cv) = .ok st' := by
  have hlen : parts.length - 1 + 1 = parts.length := by
    cases parts with
    | nil => exact absurd rfl hne
    | cons hd tl => simp
  rw [spliceLoop_eq, hlen, List.take_length, hget]
  show mergeAt st' (parts.map jsonIndexOf) cv (.objectU cv) = .ok st'
  have hset := setAt_of_getAt (parts.map jsonIndexOf) st' cv hget
  cases cv with
  | null => exact False.elim hscal
  | boolVal b => simp only [mergeAt]; rw [hset]
  | intVal i => simp only [mergeAt]; rw [hset]
  | floatVal q => simp only [mergeAt]; rw [hset]
  | str s => simp only [mergeAt]; rw [hset]
  | arr xs => exact False.elim hscal
  | obj fs => exact False.elim hscal

theorem spliceLoop_numeric_head (parts : List String) (cv : JValue) (m : Nat)
    (hm : jsonIndexOf (parts.headD "") = .natI m) :
    ∀ i, i < parts.length → ∀ gs,
      spliceLoop parts i (.obj gs) (carriedFrom parts cv (parts.length - 1 - i))
        = rootInsert (.obj gs) (parts.headD "") (carriedFrom parts cv (parts.length - 1)) := by
  intro i
  induction i with
  | zero =>
    intro h0 gs
    rw [spliceLoop_eq]
    have htake : (parts.take 1).map jsonIndexOf = [.natI m] := by
      cases parts with
      | nil => simp at h0
      | cons hd tl =>
        simp only [List.headD_cons] at hm
        simp [List.take_succ_cons, hm]
    rw [htake, getAt_obj_natI]
    rfl
  | succ j ih =>
    intro hij gs
    rw [spliceLoop_eq]
    have hhead : ∃ rest, (parts.take (j + 2)).map jsonIndexOf = .natI m :: rest := by
      cases parts with
      | nil => simp at hij
      | cons hd tl =>
        refine ⟨(tl.take (j + 1)).map jsonIndexOf, ?_⟩
        simp only [List.headD_cons] at hm
        simp only [List.take_succ_cons, List.map_cons, hm]
    obtain ⟨rest, hrest⟩ := hhead
    rw [hrest, getAt_obj_natI]
    show spliceLoop parts j (.obj gs)
        (wrapPart (parts.getD (j + 1) "")
          (carriedFrom parts cv (parts.length - 1 - (j + 1))))
      = rootInsert (.obj gs) (parts.headD "") (carriedFrom parts cv (parts.length - 1))
    rw [carriedFrom_wrap parts cv j (by omega)]
    exact ih (by omega) gs

theorem getAt_setAt_append (idx rest : List JsonIndex) (st curr x : JValue)
    (hg : getAt st idx = some curr) :
    getAt (setAt st idx x) (idx ++ rest) = getAt x rest := by
  rw [getAt_append]
  rw [getAt_setAt_self idx st curr x hg]
  rfl

theorem mergeAt_ok_getAt (parts : List String) (cv : JValue) (hscal : isScalarJ cv)
    (i : Nat) (hi : i < parts.length) (st st' curr : JValue)
    (hg : getAt st ((parts.take (i + 1)).map jsonIndexOf) = some curr)
    (hmerge : mergeAt st ((parts.take (i + 1)).map jsonIndexOf) curr
        (carriedFrom parts cv (parts.length - 1 - i)) = .ok st') :
    getAt st' (parts.map jsonIndexOf) = some cv := by
  have hfull : parts.map jsonIndexOf
      = (parts.take (i + 1)).map jsonIndexOf ++ (parts.drop (i + 1)).map jsonIndexOf :=
    map_take_append_drop parts i
  cases hk : parts.length - 1 - i with
  | zero =>
    rw [hk] at hmerge
    simp only [carriedFrom] at hmerge
    have hdrop : (parts.drop (i + 1)).map jsonIndexOf = [] := by
      rw [List.drop_eq_nil_of_le (by omega)]
      rfl
    have hfull2 : parts.map jsonIndexOf = (parts.take (i + 1)).map jsonIndexOf := by
      rw [hfull, hdrop, List.append_nil]
    rw [hfull2]
    cases curr with
    | obj fs =>
      cases cv with
      | null => exact False.elim hscal
      | arr xs => exact False.elim hscal
      | obj gs => exact False.elim hscal
      | boolVal b => simp only [mergeAt] at hmerge; exact Outcome.noConfusion hmerge
      | intVal n => simp only [mergeAt] at hmerge; exact Outcome.noConfusion hmerge
      | floatVal q => simp only [mergeAt] at hmerge; exact Outcome.noConfusion hmerge
      | str s => simp only [mergeAt] at hmerge; exact Outcome.noConfusion hmerge
    | arr xs =>
      simp only [mergeAt] at hmerge
      exact Outcome.noConfusion hmerge
    | null =>
      simp only [mergeAt] at hmerge
      injection hmerge with h
      rw [← h]
      exact getAt_setAt_self _ st _ cv hg
    | boolVal b =>
      simp only [mergeAt] at hmerge
      injection hmerge with h
      rw [← h]
      exact getAt_setAt_self _ st _ cv hg
    | intVal n =>
      simp only [mergeAt] at hmerge
      injection hmerge with h
      rw [← h]
      exact getAt_setAt_self _ st _ cv hg
    | floatVal q =>
      simp only [mergeAt] at hmerge
      injection hmerge with h
      rw [← h]
      exact getAt_setAt_self _ st _ cv hg
    | str s =>
      simp only [mergeAt] at hmerge
      injection hmerge with h
      rw [← h]
      exact getAt_setAt_self _ st _ cv hg
  | succ k =>
    have hiL : i + 1 < parts.length := by omega
    have hcar : carriedFrom parts cv (parts.length - 1 - i)
        = wrapPart (parts.getD (i + 1) "") (carriedFrom parts cv k) := by
      rw [hk]
      simp only [carriedFrom]
      have hidx2 : parts.length - 1 - k = i + 1 := by omega
      rw [hidx2]
    have hgd : parts.getD (i + 1) "" = parts[i + 1] := List.getD_eq_getElem parts "" hiL
    have hprev : getAt ((carriedFrom parts cv k).intoJson)
        ((parts.drop (i + 2)).map jsonIndexOf) = some cv := by
      have hbase := getAt_carriedFrom parts cv k (by omega)
      have h2 : parts.length - k = i + 2 := by omega
      rwa [h2] at hbase
    rw [hcar, hgd] at hmerge
    rw [hfull, map_drop_cons parts i hiL]
    cases hp : parseUsize parts[i + 1] with
    | none =>
      rw [jsonIndexOf_of_none _ hp]
      unfold wrapPart at hmerge
      rw [hp] at hmerge
      cases curr with
      | obj fs =>
        simp only [mergeAt] at hmerge
        injection hmerge with h
        rw [← h, getAt_setAt_append _ _ st _ _ hg]
        rw [getAt_obj_strI, lookupObj_insertObj_self]
        exact hprev
      | arr xs =>
        simp only [mergeAt] at hmerge
        exact Outcome.noConfusion hmerge
      | null =>
        simp only [mergeAt] at hmerge
        injection hmerge with h
        rw [← h, getAt_setAt_append _ _ st _ _ hg]
        have hlk : lookupObj [(parts[i + 1], (carriedFrom parts cv k).intoJson)] parts[i + 1]
            = some ((carriedFrom parts cv k).intoJson) := by
          simp [lookupObj]
        rw [getAt_obj_strI, hlk]
        exact hprev
      | boolVal b =>
        simp only [mergeAt] at hmerge
        injection hmerge with h
        rw [← h, getAt_setAt_append _ _ st _ _ hg]
        have hlk : lookupObj [(parts[i + 1], (carriedFrom parts cv k).intoJson)] parts[i + 1]
            = some ((carriedFrom parts cv k).intoJson) := by
          simp [lookupObj]
        rw [getAt_obj_strI, hlk]
        exact hprev
      | intVal n2 =>
        simp only [mergeAt] at hmerge
        injection hmerge with h
        rw [← h, getAt_setAt_append _ _ st _ _ hg]
        have hlk : lookupObj [(parts[i + 1], (carriedFrom parts cv k).intoJson)] parts[i + 1]
            = some ((carriedFrom parts cv k).intoJson) := by
          simp [lookupObj]
        rw [getAt_obj_strI, hlk]
        exact hprev
      | floatVal q2 =>
        simp only [mergeAt] at hmerge
        injection hmerge with h
        rw [← h, getAt_setAt_append _ _ st _ _ hg]
        have hlk : lookupObj [(parts[i + 1], (carriedFrom parts cv k).intoJson)] parts[i + 1]
            = some ((carriedFrom parts cv k).intoJson) := by
          simp [lookupObj]
        rw [getAt_obj_strI, hlk]
        exact hprev
      | str s2 =>
        simp only [mergeAt] at hmerge
        injection hmerge with h
        rw [← h, getAt_setAt_append _ _ st _ _ hg]
        have hlk : lookupObj [(parts[i + 1], (carriedFrom parts cv k).intoJson)] parts[i + 1]
            = some ((carriedFrom parts cv k).intoJson) := by
          simp [lookupObj]
        rw [getAt_obj_strI, hlk]
        exact hprev
    | some n =>
      rw [jsonIndexOf_of_some _ n hp]
      unfold wrapPart at hmerge
      rw [hp] at hmerge
      cases curr with
      | arr xs =>
        simp only [mergeAt] at hmerge
        injection hmerge with h
        rw [← h, getAt_setAt_append _ _ st _ _ hg]
        rw [getAt_arr_natI, arrSet_getElem_self]
        exact hprev
      | obj fs =>
        simp only [mergeAt] at hmerge
        exact Outcome.noConfusion hmerge
      | null =>
        simp only [mergeAt] at hmerge
        exact Outcome.noConfusion hmerge
      | boolVal b =>
        simp only [mergeAt] at hmerge
        exact Outcome.noConfusion hmerge
      | intVal n2 =>
        simp only [mergeAt] at hmerge
        exact Outcome.noConfusion hmerge
      | floatVal q2 =>
        simp only [mergeAt] at hmerge
        exact Outcome.noConfusion hmerge
      | str s2 =>
        simp only [mergeAt] at hmerge
        exact Outcome.noConfusion hmerge

theorem map_head_cons (parts : List String) (hne : parts ≠ []) :
    parts.map jsonIndexOf
      = jsonIndexOf (parts.headD "") :: (parts.drop 1).map jsonIndexOf := by
  cases parts with
  | nil => exact absurd rfl hne
  | cons hd tl => rfl

theorem spliceLoop_rerun (parts : List String) (cv : JValue)
    (hlow : ∀ t ∈ parts, lowerStr t = t) (hscal : isScalarJ cv) :
    ∀ (i : Nat) (st st' : JValue), i < parts.length →
      spliceLoop parts i st (carriedFrom parts cv (parts.length - 1 - i)) = .ok st' →
      spliceLoop parts (parts.length - 1) st' (.objectU cv) = .ok st' := by
  intro i
  induction i with
  | zero =>
    intro st st' h0 hrun
    have hne : parts ≠ [] := by
      intro hnil
      rw [hnil] at h0
      simp at h0
    rw [spliceLoop_eq] at hrun
    cases hg : getAt st ((parts.take (0 + 1)).map jsonIndexOf) with
    | some curr =>
      rw [hg] at hrun
      exact spliceLoop_replace_same parts cv st' hscal hne
        (mergeAt_ok_getAt parts cv hscal 0 h0 st st' curr hg hrun)
    | none =>
      rw [hg] at hrun
      replace hrun : rootInsert st (parts.headD "")
          (carriedFrom parts cv (parts.length - 1 - 0)) = .ok st' := hrun
      simp only [Nat.sub_zero] at hrun
      have hp0mem : parts.headD "" ∈ parts := by
        cases parts with
        | nil => exact absurd rfl hne
        | cons hd tl => simp
      have hl0 : lowerStr (parts.headD "") = parts.headD "" := hlow _ hp0mem
      cases st with
      | null => simp only [rootInsert] at hrun; exact Outcome.noConfusion hrun
      | boolVal b => simp only [rootInsert] at hrun; exact Outcome.noConfusion hrun
      | intVal n => simp only [rootInsert] at hrun; exact Outcome.noConfusion hrun
      | floatVal q => simp only [rootInsert] at hrun; exact Outcome.noConfusion hrun
      | str s => simp only [rootInsert] at hrun; exact Outcome.noConfusion hrun
      | arr xs => simp only [rootInsert] at hrun; exact Outcome.noConfusion hrun
      | obj fs =>
        simp only [rootInsert] at hrun
        injection hrun with h
        rw [hl0] at h
        cases hjm : jsonIndexOf (parts.headD "") with
        | strI s0 =>
          have hs0 : s0 = parts.headD "" := by
            unfold jsonIndexOf at hjm
            cases hpz : parseUsize (parts.headD "") with
            | none =>
              rw [hpz] at hjm
              injection hjm with h2
              exact h2.symm
            | some n =>
              rw [hpz] at hjm
              exact JsonIndex.noConfusion hjm
          apply spliceLoop_replace_same parts cv st' hscal hne
          rw [map_head_cons parts hne, hjm, hs0]
          rw [← h]
          rw [getAt_obj_strI, lookupObj_insertObj_self]
          have hcf := getAt_carriedFrom parts cv (parts.length - 1)
            (by cases parts with
              | nil => exact absurd rfl hne
              | cons hd tl => simp)
          have hd1 : parts.length - (parts.length - 1) = 1 := by
            cases parts with
            | nil => exact absurd rfl hne
            | cons hd tl => simp
          rw [hd1] at hcf
          exact hcf
        | natI m =>
          rw [← h]
          have hD := spliceLoop_numeric_head parts cv m hjm (parts.length - 1)
            (by cases parts with
              | nil => exact absurd rfl hne
              | cons hd tl => simp)
            (insertObj fs (parts.headD "")
              ((carriedFrom parts cv (parts.length - 1)).intoJson))
          have hz : parts.length - 1 - (parts.length - 1) = 0 := by omega
          rw [hz] at hD
          simp only [carriedFrom] at hD
          rw [hD]
          simp only [rootInsert]
          rw [hl0]
          rw [insertObj_insertObj_self]
  | succ j ih =>
    intro st st' hij hrun
    have hne : parts ≠ [] := by
      intro hnil
      rw [hnil] at hij
      simp at hij
    rw [spliceLoop_eq] at hrun
    cases hg : getAt st ((parts.take (j + 1 + 1)).map jsonIndexOf) with
    | some curr =>
      rw [hg] at hrun
      exact spliceLoop_replace_same parts cv st' hscal hne
        (mergeAt_ok_getAt parts cv hscal (j + 1) hij st st' curr hg hrun)
    | none =>
      rw [hg] at hrun
      replace hrun : spliceLoop parts j st
          (wrapPart (parts.getD (j + 1) "")
            (carriedFrom parts cv (parts.length - 1 - (j + 1)))) = .ok st' := hrun
      rw [carriedFrom_wrap parts cv j (by omega)] at hrun
      exact ih st st' (by omega) hrun

theorem processVar_eq_of_coerce_ok (sep : String) (st : JValue)
    (kv : String × String) (cv : JValue) (hc : coerce kv.2 = .ok cv) :
    processVar sep st kv =
      (if ((splitKeyRaw sep kv.1).map lowerStr).length = 1 then
        match parseUsize (((splitKeyRaw sep kv.1).map lowerStr).headD "") with
        | some _ => Outcome.err "First key part cannot be a number"
        | none => rootIndexAssign st (((splitKeyRaw sep kv.1).map lowerStr).headD "") cv
      else
        spliceLoop ((splitKeyRaw sep kv.1).map lowerStr)
          (((splitKeyRaw sep kv.1).map lowerStr).length - 1) st (.objectU cv)) := by
  unfold processVar
  rw [hc]

theorem processVar_eq_of_coerce_err (sep : String) (st : JValue)
    (kv : String × String) (e : String) (hc : coerce kv.2 = .error e) :
    processVar sep st kv = .err e := by
  unfold processVar
  rw [hc]

theorem processVar_idem_ok (sep : String) (st st' : JValue) (kv : String × String)
    (h : processVar sep st kv = .ok st') : processVar sep st' kv = .ok st' := by
  cases hc : coerce kv.2 with
  | error e =>
    rw [processVar_eq_of_coerce_err sep st kv e hc] at h
    exact Outcome.noConfusion h
  | ok cv =>
    rw [processVar_eq_of_coerce_ok sep st kv cv hc] at h
    rw [processVar_eq_of_coerce_ok sep st' kv cv hc]
    set parts := (splitKeyRaw sep kv.1).map lowerStr with hparts
    by_cases hlen : parts.length = 1
    · rw [if_pos hlen] at h ⊢
      cases hpz : parseUsize (parts.headD "") with
      | some n =>
        rw [hpz] at h
        exact Outcome.noConfusion h
      | none =>
        rw [hpz] at h
        replace h : rootIndexAssign st (parts.headD "") cv = .ok st' := h
        show rootIndexAssign st' (parts.headD "") cv = .ok st'
        cases st with
        | obj fs =>
          simp only [rootIndexAssign] at h ⊢
          injection h with h
          rw [← h]
          simp only [rootIndexAssign]
          rw [insertObj_insertObj_self]
        | null =>
          simp only [rootIndexAssign] at h
          injection h with h
          rw [← h]
          simp only [rootIndexAssign]
          simp [insertObj]
        | boolVal b => simp only [rootIndexAssign] at h; exact Outcome.noConfusion h
        | intVal n2 => simp only [rootIndexAssign] at h; exact Outcome.noConfusion h
        | floatVal q => simp only [rootIndexAssign] at h; exact Outcome.noConfusion h
        | str s => simp only [rootIndexAssign] at h; exact Outcome.noConfusion h
        | arr xs => simp only [rootIndexAssign] at h; exact Outcome.noConfusion h
    · rw [if_neg hlen] at h ⊢
      have hnn : parts ≠ [] := by
        rw [hparts]
        intro hx
        exact splitKeyRaw_ne_nil sep kv.1 (List.map_eq_nil_iff.mp hx)
      have hlen2 : 0 < parts.length := List.length_pos.mpr hnn
      have hlow : ∀ t ∈ parts, lowerStr t = t := lowerStr_mem_map_idem parts _ hparts
      have hscal := coerce_isScalarJ kv.2 cv hc
      have hstart : carriedFrom parts cv (parts.length - 1 - (parts.length - 1))
          = .objectU cv := by
        rw [Nat.sub_self]
        rfl
      exact spliceLoop_rerun parts cv hlow hscal (parts.length - 1) st st'
        (by omega) (by rw [hstart]; exact h)

theorem string_ext {a b : String} (h : a.data = b.data) : a = b := by
  cases a
  cases b
  exact congrArg String.mk h

theorem coerce_error_eq (v e : String) (h : coerce v = .error e) :
    e = "Failed to parse float" := by
  unfold coerce at h
  cases hp : parseI64 v with
  | some n => rw [hp] at h; exact Except.noConfusion h
  | none =>
    rw [hp] at h
    cases hf : parseF64 v with
    | some fv =>
      rw [hf] at h
      cases fv with
      | finite q => exact Except.noConfusion h
      | posInf => injection h with h; exact h.symm
      | negInf => injection h with h; exact h.symm
      | nanV => injection h with h; exact h.symm
    | none =>
      rw [hf] at h
      cases hb : parseBool v with
      | some b => rw [hb] at h; exact Except.noConfusion h
      | none => rw [hb] at h; exact Except.noConfusion h

theorem mergeAt_err_shape (st : JValue) (idx : List JsonIndex) (curr : JValue)
    (pv : PartValue) (e : String) (h : mergeAt st idx curr pv = .err e) :
    e = "Expected object" ∨ e = "Expected array" := by
  cases pv with
  | objectU value =>
    cases curr with
    | obj fs =>
      cases value with
      | obj gs =>
        cases gs with
        | nil => simp only [mergeAt] at h; exact Outcome.noConfusion h
        | cons hd tl => simp only [mergeAt] at h; exact Outcome.noConfusion h
      | null => simp only [mergeAt] at h; injection h with h; exact Or.inl h.symm
      | boolVal b => simp only [mergeAt] at h; injection h with h; exact Or.inl h.symm
      | intVal n => simp only [mergeAt] at h; injection h with h; exact Or.inl h.symm
      | floatVal q => simp only [mergeAt] at h; injection h with h; exact Or.inl h.symm
      | str s => simp only [mergeAt] at h; injection h with h; exact Or.inl h.symm
      | arr xs => simp only [mergeAt] at h; injection h with h; exact Or.inl h.symm
    | null => simp only [mergeAt] at h; exact Outcome.noConfusion h
    | boolVal b => simp only [mergeAt] at h; exact Outcome.noConfusion h
    | intVal n => simp only [mergeAt] at h; exact Outcome.noConfusion h
    | floatVal q => simp only [mergeAt] at h; exact Outcome.noConfusion h
    | str s => simp only [mergeAt] at h; exact Outcome.noConfusion h
    | arr xs => simp only [mergeAt] at h; exact Outcome.noConfusion h
  | arrayItemU n w =>
    cases curr with
    | arr xs => simp only [mergeAt] at h; exact Outcome.noConfusion h
    | null => simp only [mergeAt] at h; injection h with h; exact Or.inr h.symm
    | boolVal b => simp only [mergeAt] at h; injection h with h; exact Or.inr h.symm
    | intVal n2 => simp only [mergeAt] at h; injection h with h; exact Or.inr h.symm
    | floatVal q => simp only [mergeAt] at h; injection h with h; exact Or.inr h.symm
    | str s => simp only [mergeAt] at h; injection h with h; exact Or.inr h.symm
    | obj fs => simp only [mergeAt] at h; injection h with h; exact Or.inr h.symm

theorem rootInsert_err_shape (st : JValue) (p : String) (pv : PartValue) (e : String)
    (h : rootInsert st p pv = .err e) : e = "Expected object" := by
  cases st with
  | obj fs => simp only [rootInsert] at h; exact Outcome.noConfusion h
  | null => simp only [rootInsert] at h; injection h with h; exact h.symm
  | boolVal b => simp only [rootInsert] at h; injection h with h; exact h.symm
  | intVal n => simp only [rootInsert] at h; injection h with h; exact h.symm
  | floatVal q => simp only [rootInsert] at h; injection h with h; exact h.symm
  | str s => simp only [rootInsert] at h; injection h with h; exact h.symm
  | arr xs => simp only [rootInsert] at h; injection h with h; exact h.symm

theorem rootIndexAssign_no_err (st : JValue) (k2 : String) (v : JValue) (e : String) :
    rootIndexAssign st k2 v ≠ .err e := by
  cases st <;> simp [rootIndexAssign]

theorem spliceLoop_err_shape (parts : List String) :
    ∀ (i : Nat) (st : JValue) (pv : PartValue) (e : String),
      spliceLoop parts i st pv = .err e →
      e = "Expected object" ∨ e = "Expected array" := by
  intro i
  induction i with
  | zero =>
    intro st pv e h
    rw [spliceLoop_eq] at h
    cases hg : getAt st ((parts.take (0 + 1)).map jsonIndexOf) with
    | some curr =>
      rw [hg] at h
      exact mergeAt_err_shape st _ curr pv e h
    | none =>
      rw [hg] at h
      exact Or.inl (rootInsert_err_shape st _ pv e h)
  | succ j ih =>
    intro st pv e h
    rw [spliceLoop_eq] at h
    cases hg : getAt st ((parts.take (j + 1 + 1)).map jsonIndexOf) with
    | some curr =>
      rw [hg] at h
      exact mergeAt_err_shape st _ curr pv e h
    | none =>
      rw [hg] at h
      exact ih st _ e h

/-- C1: the claim reads that every core error, in particular every shape
mismatch between the carried unit and the existing node, is reported as a
synchronous Error and parse_iter never aborts with a panic.  The code
violates it: when the carried unit is object-shaped and the resolved node
is an existing Array, line 304 of lib.rs is a reachable `panic!`.  Both
with plain inputs against an empty seed and with a seeded array, the
embedded parse_iter reaches the panic instead of returning an error. -/
theorem c1_object_unit_meets_array_panics :
    parse_iter defaultParser [("A__5", "1"), ("A__!", "2")]
      = .panicked "Unexpected value" ∧
    parse_iter seededArrayParser [("A__B", "2")] = .panicked "Unexpected value" :=
  ⟨rfl, rfl⟩

/-- C2 counterexample: the claim says every surviving pair whose first
decoded segment is an Index makes parse_iter fail with MalformedPath
regardless of segment count.  With two segments, key 0__A is accepted:
the parse succeeds and inserts the numeric token as an object field. -/
theorem c2_counterexample_multiseg_index_head_no_error :
    parse_iter defaultParser [("0__A", "x")]
      = .ok (.obj [("0", .obj [("a", .str "x")])]) := rfl

/-- C2 amended: only a path with exactly one segment whose lowercased
token parses entirely as a non-negative 64-bit integer fails with the
MalformedPath error — whenever the per-pair step returns exactly that
error, the decoded path had one segment and it parsed as an index.  A
path with two or more segments whose first segment classifies as an
Index is never rejected by that check: against an object root no prefix
of such a path can resolve (a usize index never resolves inside an
object), so for any separator and any remaining segments the pair
splices successfully, with the numeric head token used as an object
field name on the root holding the subtree built from the rest. -/
theorem c2_amended_index_head_not_rejected :
    (∀ (sep : String) (st : JValue) (k v : String),
      processVar sep st (k, v) = .err "First key part cannot be a number" →
      ((splitKeyRaw sep k).map lowerStr).length = 1 ∧
        ∃ n, parseUsize (((splitKeyRaw sep k).map lowerStr).headD "") = some n) ∧
    (∀ (sep : String) (fs : List (String × JValue)) (k v : String) (n : Nat)
        (cv : JValue),
      2 ≤ ((splitKeyRaw sep k).map lowerStr).length →
      parseUsize (((splitKeyRaw sep k).map lowerStr).headD "") = some n →
      coerce v = .ok cv →
      processVar sep (.obj fs) (k, v)
        = .ok (.obj (insertObj fs (((splitKeyRaw sep k).map lowerStr).headD "")
            ((carriedFrom ((splitKeyRaw sep k).map lowerStr) cv
              (((splitKeyRaw sep k).map lowerStr).length - 1)).intoJson)))) := by
  constructor
  · intro sep st k v h
    cases hc : coerce v with
    | error e0 =>
      rw [processVar_eq_of_coerce_err sep st (k, v) e0 hc] at h
      injection h with h
      rw [coerce_error_eq v e0 hc] at h
      exact absurd h (by decide)
    | ok cv =>
      rw [processVar_eq_of_coerce_ok sep st (k, v) cv hc] at h
      set parts := (splitKeyRaw sep k).map lowerStr with hparts
      by_cases hlen : parts.length = 1
      · rw [if_pos hlen] at h
        cases hpz : parseUsize (parts.headD "") with
        | some n => exact ⟨hlen, n, rfl⟩
        | none =>
          rw [hpz] at h
          exact absurd h (rootIndexAssign_no_err st (parts.headD "") cv _)
      · rw [if_neg hlen] at h
        rcases spliceLoop_err_shape parts (parts.length - 1) st (.objectU cv) _ h
          with h1 | h1
        · exact absurd h1 (by decide)
        · exact absurd h1 (by decide)
  · intro sep fs k v n cv hlen hnum hcv
    rw [processVar_eq_of_coerce_ok sep (.obj fs) (k, v) cv hcv]
    set parts := (splitKeyRaw sep k).map lowerStr with hparts
    rw [if_neg (by omega)]
    have hne : parts ≠ [] := by
      intro hx
      rw [hx] at hlen
      simp at hlen
    have hm : jsonIndexOf (parts.headD "") = .natI n := jsonIndexOf_of_some _ n hnum
    have hD := spliceLoop_numeric_head parts cv n hm (parts.length - 1) (by omega) fs
    have hcar : carriedFrom parts cv (parts.length - 1 - (parts.length - 1))
        = .objectU cv := by
      rw [Nat.sub_self]
      rfl
    rw [hcar] at hD
    rw [hD]
    simp only [rootInsert]
    obtain ⟨hd, tl, hcons⟩ : ∃ hd tl, parts = hd :: tl := by
      cases hq : parts with
      | nil => exact absurd hq hne
      | cons hd tl => exact ⟨hd, tl, rfl⟩
    have hmem : parts.headD "" ∈ parts := by
      rw [hcons]
      simp
    rw [lowerStr_mem_map_idem parts _ hparts (parts.headD "") hmem]

/-- C2 witness: the amended statement applied at concrete pairs — the
single-segment numeric key 7 does produce the MalformedPath error and is
classified as such, and the three-segment key 0__A__B with an index head
splices successfully into an empty root object. -/
theorem c2_amended_witness :
    ((((splitKeyRaw "__" "7").map lowerStr).length = 1 ∧
      ∃ n, parseUsize (((splitKeyRaw "__" "7").map lowerStr).headD "") = some n) ∧
    processVar "__" (.obj []) ("0__A__B", "x")
      = .ok (.obj (insertObj [] (((splitKeyRaw "__" "0__A__B").map lowerStr).headD "")
          ((carriedFrom ((splitKeyRaw "__" "0__A__B").map lowerStr) (.str "x")
            (((splitKeyRaw "__" "0__A__B").map lowerStr).length - 1)).intoJson)))) :=
  ⟨c2_amended_index_head_not_rejected.1 "__" (.obj []) "7" "x" (by rfl),
   c2_amended_index_head_not_rejected.2 "__" [] "0__A__B" "x" 0 (.str "x")
     (by decide) (by rfl) (by rfl)⟩

/-- C3 counterexample: the claim says processing the longer key first and
then its strict-prefix key preserves the nested structure the longer key
created.  With keys A__B and A (the pair named by the claim), the sort
does process A__B first, yet the later single-segment key A overwrites
the root field wholesale: the result is an object whose field a holds the
scalar 2 and the nested path a.b no longer resolves. -/
theorem c3_counterexample_shorter_key_clobbers :
    parse_iter defaultParser [("A__B", "1"), ("A", "2")] = .ok (.obj [("a", .intVal 2)]) ∧
    getAt (.obj [("a", .intVal 2)]) [.strI "a", .strI "b"] = none :=
  ⟨rfl, rfl⟩

/-- C3 amended: the descending sort does order a strictly-longer key
before its prefix key, but processing longer-first then shorter does not
preserve the longer structure: a single-segment shorter key overwrites
the root field wholesale (clobbering the nested value), and a
multi-segment shorter key whose path now resolves to the object the
longer key created aborts the whole parse with a shape-mismatch error. -/
theorem c3_amended_longer_first_order_without_preservation
    (s r v1 v2 : String) (hr : r ≠ "") :
    sortDesc [(s, v1), (s ++ r, v2)] = [(s ++ r, v2), (s, v1)] ∧
    parse_iter defaultParser [("A__B", "1"), ("A", "2")]
      = .ok (.obj [("a", .intVal 2)]) ∧
    parse_iter defaultParser [("A__B__C", "1"), ("A__B", "2")]
      = .err "Expected object" := by
  refine ⟨?_, rfl, rfl⟩
  have hrd : r.data ≠ [] := by
    intro hx
    apply hr
    cases r with
    | mk d =>
      have hd : d = [] := hx
      rw [hd]
  have hfalse : strLeBytes (s ++ r) s = false := by
    unfold strLeBytes
    rw [string_data_append]
    exact lexLe_append_right_ne s.data r.data hrd
  show List.insertionSort descOrder [(s, v1), (s ++ r, v2)] = _
  simp only [List.insertionSort, List.orderedInsert]
  rw [if_neg (by simp [descOrder, hfalse])]

/-- C3 witness: the amended statement applied at concrete strings. -/
theorem c3_amended_witness :
    sortDesc [("A", "1"), ("A__B", "2")] = [("A__B", "2"), ("A", "1")] ∧
    parse_iter defaultParser [("A__B", "1"), ("A", "2")]
      = .ok (.obj [("a", .intVal 2)]) ∧
    parse_iter defaultParser [("A__B__C", "1"), ("A__B", "2")]
      = .err "Expected object" :=
  c3_amended_longer_first_order_without_preservation "A" "__B" "1" "2" (by decide)

/-- C4: splicing an array item into an existing array writes by
overwrite-in-place after growing the array with Null placeholders up to
the target index: the result has length max(old length, index + 1), holds
the value at the index, keeps every other existing element at its
position, and fills the new slots below the index with Null.  The two
end-to-end scenarios of the claim hold: seed int_list [1, 0, 3] with
PREFIX__INT_LIST__1 = 2 gives [1, 2, 3], and splicing index 3 into an
empty array gives [null, null, null, value]. -/
theorem c4_array_overwrite_in_place (xs : List JValue) (n : Nat) (v : JValue) :
    ((arrSet xs n v).length = max xs.length (n + 1) ∧
      (arrSet xs n v)[n]? = some v ∧
      (∀ j, j < xs.length → j ≠ n → (arrSet xs n v)[j]? = xs[j]?) ∧
      (∀ j, xs.length ≤ j → j < n → (arrSet xs n v)[j]? = some .null)) ∧
    parse_iter (prefixedParser (.obj [("int_list", .arr [.intVal 1, .intVal 0, .intVal 3])]))
        [("PREFIX__INT_LIST__1", "2")]
      = .ok (.obj [("int_list", .arr [.intVal 1, .intVal 2, .intVal 3])]) ∧
    parse_iter (prefixedParser (.obj [("a", .arr [])])) [("PREFIX__A__3", "7")]
      = .ok (.obj [("a", .arr [.null, .null, .null, .intVal 7])]) := by
  refine ⟨⟨?_, arrSet_getElem_self xs n v, ?_, ?_⟩, rfl, rfl⟩
  · by_cases hll : xs.length ≤ n
    · simp only [arrSet, if_pos hll, List.length_set, List.length_append,
        List.length_replicate]
      omega
    · simp only [arrSet, if_neg hll, List.length_set]
      omega
  · intro j hj hjn
    by_cases hll : xs.length ≤ n
    · simp only [arrSet, if_pos hll]
      rw [List.getElem?_set_ne (by omega)]
      exact List.getElem?_append_left hj
    · simp only [arrSet, if_neg hll]
      rw [List.getElem?_set_ne (by omega)]
  · intro j hj1 hj2
    have hll : xs.length ≤ n := by omega
    simp only [arrSet, if_pos hll]
    rw [List.getElem?_set_ne (by omega)]
    rw [List.getElem?_append_right hj1]
    rw [List.getElem?_replicate]
    rw [if_pos (by omega)]

/-- C4 witness: the overwrite-and-backfill facts applied at a concrete
array, index and value. -/
theorem c4_witness :
    (arrSet [JValue.intVal 9] 2 (.intVal 7)).length = max 1 3 ∧
    (arrSet [JValue.intVal 9] 2 (.intVal 7))[0]? = [JValue.intVal 9][0]? ∧
    (arrSet [JValue.intVal 9] 2 (.intVal 7))[1]? = some .null :=
  ⟨(c4_array_overwrite_in_place [.intVal 9] 2 (.intVal 7)).1.1,
   (c4_array_overwrite_in_place [.intVal 9] 2 (.intVal 7)).1.2.2.1 0 (by decide) (by decide),
   (c4_array_overwrite_in_place [.intVal 9] 2 (.intVal 7)).1.2.2.2 1 (by decide) (by decide)⟩

/-- C5: scalar coercion tries, in order with first success winning,
signed 64-bit integer, then IEEE double — where a parse that yields a
non-finite value (NaN or an infinity, e.g. from nan or an overflowing
literal) is the reported error "Failed to parse float", not a silent
fallback — then the case-sensitive booleans, and otherwise keeps the
string unchanged with its original case.  The priority examples of the
claim evaluate as stated. -/
theorem c5_coercion_trial_order :
    (∀ (s : String) (n : Int), parseI64 s = some n → coerce s = .ok (.intVal n)) ∧
    (∀ (s : String) (q : ℚ), parseI64 s = none → parseF64 s = some (.finite q) →
      coerce s = .ok (.floatVal q)) ∧
    (∀ (s : String) (fv : FloatVal), parseI64 s = none → parseF64 s = some fv →
      (∀ q, fv ≠ .finite q) → coerce s = .error "Failed to parse float") ∧
    (∀ (s : String) (b : Bool), parseI64 s = none → parseF64 s = none →
      parseBool s = some b → coerce s = .ok (.boolVal b)) ∧
    (∀ s : String, parseI64 s = none → parseF64 s = none → parseBool s = none →
      coerce s = .ok (.str s)) ∧
    coerce "1" = .ok (.intVal 1) ∧
    coerce "1.5" = .ok (.floatVal (mkRat 3 2)) ∧
    coerce "true" = .ok (.boolVal true) ∧
    coerce "false" = .ok (.boolVal false) ∧
    coerce "abc" = .ok (.str "abc") ∧
    coerce "aBc" = .ok (.str "aBc") ∧
    coerce "nan" = .error "Failed to parse float" ∧
    coerce "1e999" = .error "Failed to parse float" := by
  refine ⟨?_, ?_, ?_, ?_, ?_, rfl, rfl, rfl, rfl, rfl, rfl, rfl, rfl⟩
  · intro s n h
    unfold coerce
    rw [h]
  · intro s q h1 h2
    unfold coerce
    rw [h1, h2]
  · intro s fv h1 h2 h3
    unfold coerce
    rw [h1, h2]
    cases fv with
    | finite q => exact absurd rfl (h3 q)
    | posInf => rfl
    | negInf => rfl
    | nanV => rfl
  · intro s b h1 h2 h3
    unfold coerce
    rw [h1, h2, h3]
  · intro s h1 h2 h3
    unfold coerce
    rw [h1, h2, h3]

/-- C5 witness: the float stage of the trial order applied at 2.5, and
the non-finite error stage applied at inf. -/
theorem c5_witness :
    coerce "2.5" = .ok (.floatVal (mkRat 5 2)) ∧
    coerce "inf" = .error "Failed to parse float" :=
  ⟨c5_coercion_trial_order.2.1 "2.5" (mkRat 5 2) (by decide) (by decide),
   c5_coercion_trial_order.2.2.1 "inf" .posInf (by decide) (by decide)
     (fun q h => FloatVal.noConfusion h)⟩

/-- C6 counterexample: the claim says the include/exclude survival test
applies whether or not a prefix is configured.  With no prefix and a
nonempty include list, the key B fails the validity test yet survives
preprocessing untouched: the filters only run in the prefixed branch. -/
theorem c6_counterexample_filters_skipped_no_pfx :
    preprocess_vars includeOnlyParser [("B", "1")] = .ok [("B", "1")] ∧
    isKeyValid includeOnlyParser "B" = false :=
  ⟨rfl, rfl⟩

/-- C6 amended: include/exclude filtering only happens when a prefix is
configured.  Without a prefix every pair survives (the patterns are
ignored); an exclude match always invalidates a key (exclude wins over
include); and with a prefix a pair survives the preprocessing exactly
when its original prefixed key occurs in the input and passes the
include/exclude validity test. -/
theorem c6_amended_filtering_pfx_only :
    (∀ (p : Parser) (vars : List (String × String)), p.pfx = none →
      preprocess_vars p vars = .ok (sortDesc vars)) ∧
    (∀ (p : Parser) (k : String), (p.excludeP.any fun pat => pat k) = true →
      isKeyValid p k = false) ∧
    (∀ (p : Parser) (px : String) (vars l : List (String × String)) (k v : String),
      p.pfx = some px → preprocess_vars p vars = .ok l →
      ((k, v) ∈ l ↔ (px ++ k, v) ∈ vars ∧ isKeyValid p (px ++ k) = true)) := by
  refine ⟨?_, ?_, ?_⟩
  · intro p vars hp
    unfold preprocess_vars
    rw [hp]
  · intro p k hk
    unfold isKeyValid
    have hne : p.excludeP.isEmpty = false := by
      cases hx : p.excludeP with
      | nil => rw [hx] at hk; simp at hk
      | cons a l => rfl
    by_cases h1 : (!p.includeP.isEmpty && !(p.includeP.any fun pat => pat k)) = true
    · rw [if_pos h1]
    · rw [if_neg h1, if_pos (by simp [hne, hk])]
  · intro p px vars l k v hp hpre
    rw [preprocess_eq_sort_survivors] at hpre
    have hall : ∀ kv ∈ (vars.filter fun kv => strStartsWith kv.1 px).filter
        (fun kv => isKeyValid p kv.1), strStartsWith kv.1 px = true := by
      intro kv hkv
      exact (List.mem_filter.mp (List.mem_filter.mp hkv).1).2
    replace hpre : Except.map sortDesc
        (((vars.filter fun kv => strStartsWith kv.1 px).filter
            fun kv => isKeyValid p kv.1).mapM
          fun kv =>
            match strStripPfx kv.1 px with
            | some k2 => Except.ok (k2, kv.2)
            | none => Except.error ("key " ++ kv.1 ++ " does not match prefix " ++ px))
        = Except.ok l := by
      rw [← hpre]
      unfold survivorsE
      rw [hp]
    rw [mapM_strip_ok px _ hall] at hpre
    replace hpre : (Except.ok
        (sortDesc (((vars.filter fun kv => strStartsWith kv.1 px).filter
            (fun kv => isKeyValid p kv.1)).map
          fun kv => (String.mk (kv.1.data.drop px.data.length), kv.2)))
        : Except String (List (String × String))) = Except.ok l := hpre
    injection hpre with hl
    rw [← hl]
    constructor
    · intro hmem
      have hmem2 := ((List.perm_insertionSort descOrder _).mem_iff).mp hmem
      obtain ⟨kv0, hkv0, hstripeq⟩ := List.mem_map.mp hmem2
      obtain ⟨k0, v0⟩ := kv0
      have hvalid := (List.mem_filter.mp hkv0).2
      have hfirst := List.mem_filter.mp (List.mem_filter.mp hkv0).1
      have hvars := hfirst.1
      have hstarts := hfirst.2
      have hpref : px.data <+: k0.data := List.isPrefixOf_iff_prefix.mp hstarts
      obtain ⟨t, ht⟩ := hpref
      have hek : String.mk (k0.data.drop px.data.length) = k := congrArg Prod.fst hstripeq
      have hev : v0 = v := congrArg Prod.snd hstripeq
      have hkd : k.data = t := by
        rw [← hek]
        show (k0.data.drop px.data.length) = t
        rw [← ht]
        exact List.drop_left px.data t
      have hk0 : k0 = px ++ k := by
        apply string_ext
        rw [string_data_append, ← ht, hkd]
      constructor
      · rw [← hk0, ← hev]
        exact hvars
      · rw [← hk0]
        exact hvalid
    · intro hand
      obtain ⟨hmemvars, hvalid⟩ := hand
      apply ((List.perm_insertionSort descOrder _).mem_iff).mpr
      apply List.mem_map.mpr
      refine ⟨(px ++ k, v), ?_, ?_⟩
      · apply List.mem_filter.mpr
        refine ⟨List.mem_filter.mpr ⟨hmemvars, ?_⟩, hvalid⟩
        show (px.data.isPrefixOf (px ++ k).data) = true
        rw [string_data_append]
        exact List.isPrefixOf_iff_prefix.mpr ⟨k.data, rfl⟩
      · show (String.mk ((px ++ k).data.drop px.data.length), v) = (k, v)
        rw [string_data_append, List.drop_left]

/-- C6 witness: the amended statement applied at concrete configurations,
both without a prefix (patterns ignored) and with one (survival is
exactly prefix match plus validity). -/
theorem c6_amended_witness :
    preprocess_vars includeOnlyParser [("B", "1")] = .ok (sortDesc [("B", "1")]) ∧
    (("A", "1") ∈ [("A", "1")] ↔
      ("P__" ++ "A", "1") ∈ [("P__A", "1")] ∧
        isKeyValid (⟨some "P__", "__", [], [], .obj []⟩ : Parser) ("P__" ++ "A") = true) :=
  ⟨c6_amended_filtering_pfx_only.1 includeOnlyParser [("B", "1")] rfl,
   c6_amended_filtering_pfx_only.2.2 ⟨some "P__", "__", [], [], .obj []⟩ "P__"
     [("P__A", "1")] [("A", "1")] "A" "1" rfl (by rfl)⟩

/-- C8: preprocessing returns the surviving (prefix-stripped when a
prefix is configured) pairs sorted descending by key in the byte
lexicographic order — pairwise, every later pair compares at most equal
to every earlier one — and the sorted list is a permutation of the
surviving pairs, so longer keys sharing a prefix come before their
shorter prefix keys. -/
theorem c8_preprocess_sorted_descending (p : Parser) (vars l : List (String × String))
    (h : preprocess_vars p vars = .ok l) :
    l.Pairwise descOrder ∧ ∃ s, survivorsE p vars = .ok s ∧ l.Perm s := by
  rw [preprocess_eq_sort_survivors] at h
  cases hs : survivorsE p vars with
  | error e =>
    rw [hs] at h
    exact Except.noConfusion h
  | ok s =>
    rw [hs] at h
    replace h : (Except.ok (sortDesc s) : Except String (List (String × String)))
        = Except.ok l := h
    injection h with h
    rw [← h]
    haveI : IsTotal (String × String) descOrder :=
      ⟨fun x y => lexLe_total y.1.data x.1.data⟩
    haveI : IsTrans (String × String) descOrder :=
      ⟨fun x y z hxy hyz => lexLe_trans z.1.data y.1.data x.1.data hyz hxy⟩
    exact ⟨List.sorted_insertionSort descOrder s, s, rfl,
      List.perm_insertionSort descOrder s⟩

/-- C8 witness: the sortedness and permutation facts at a concrete
two-pair input, where the keys come out in descending order. -/
theorem c8_witness :
    ([("B", "2"), ("A", "1")].Pairwise descOrder ∧
      ∃ s, survivorsE defaultParser [("A", "1"), ("B", "2")] = .ok s ∧
        [("B", "2"), ("A", "1")].Perm s) :=
  c8_preprocess_sorted_descending defaultParser [("A", "1"), ("B", "2")]
    [("B", "2"), ("A", "1")] (by rfl)

/-- C9: a surviving pair whose key decodes, after prefix stripping and
lowercasing, to exactly one segment that parses entirely as a
non-negative 64-bit integer is rejected: whenever its value coerces, the
per-pair step returns exactly the error "First key part cannot be a
number" for every tree state; the step returns an error for every tree
state regardless of the value; and the whole parse_iter never returns a
tree. -/
theorem c9_root_numeric_rejected (p : Parser) (vars l : List (String × String))
    (k v t : String) (n : Nat)
    (hpre : preprocess_vars p vars = .ok l) (hmem : (k, v) ∈ l)
    (hsplit : (splitKeyRaw p.separator k).map lowerStr = [t])
    (hnum : parseUsize t = some n) :
    (∀ (st : JValue) (cv : JValue), coerce v = .ok cv →
      processVar p.separator st (k, v) = .err "First key part cannot be a number") ∧
    (∀ st : JValue, ∃ e, processVar p.separator st (k, v) = .err e) ∧
    (∀ r, parse_iter p vars ≠ .ok r) := by
  refine ⟨?_, ?_, ?_⟩
  · intro st cv hcv
    exact processVar_single_numeric p.separator k v t n cv hsplit hnum hcv st
  · intro st
    exact processVar_single_numeric_always_err p.separator k v t n hsplit hnum st
  · intro r
    unfold parse_iter
    rw [hpre]
    exact parseLoop_no_ok_of_mem p.separator (k, v)
      (fun st => processVar_single_numeric_always_err p.separator k v t n hsplit hnum st)
      l p.json hmem r

/-- C9 witness: the rejection applied to the concrete single numeric key
5 under the default configuration. -/
theorem c9_witness :
    processVar "__" (.obj []) ("5", "x") = .err "First key part cannot be a number" ∧
    ∀ r, parse_iter defaultParser [("5", "x")] ≠ .ok r :=
  ⟨(c9_root_numeric_rejected defaultParser [("5", "x")] [("5", "x")] "5" "x" "5" 5
      (by rfl) (by simp) (by rfl) (by decide)).1 (.obj []) (.str "x") (by rfl),
   (c9_root_numeric_rejected defaultParser [("5", "x")] [("5", "x")] "5" "x" "5" 5
      (by rfl) (by simp) (by rfl) (by decide)).2.2⟩

/-- C10: with the shared-reference receiver of `parse_iter` made explicit
as state passing, the parser coming out of a call is the parser that went
in — the call reads the configuration and clones the seed tree (line 247)
instead of consuming it — and a second call on the resulting parser with
the same input returns the same result as the first. -/
theorem c10_parse_iter_leaves_parser_unchanged (p : Parser)
    (vars : List (String × String)) :
    (parse_iter_st p vars).2 = p ∧
    (parse_iter_st (parse_iter_st p vars).2 vars).1 = (parse_iter_st p vars).1 :=
  ⟨rfl, rfl⟩

/-- C7: processing a (key, value) pair and then immediately processing
the identical pair again yields the same result as processing it once,
for every separator, tree state and pair: a successful splice produces a
tree that a second identical splice leaves unchanged, and an error or
panic propagates unchanged through the sequencing. -/
theorem c7_reapply_idempotent (sep : String) (st : JValue) (kv : String × String) :
    Outcome.bindO (processVar sep st kv) (fun st2 => processVar sep st2 kv)
      = processVar sep st kv := by
  cases h : processVar sep st kv with
  | ok st' =>
    simp only [Outcome.bindO]
    exact processVar_idem_ok sep st st' kv h
  | err e => rfl
  | panicked m => rfl
